import Mathlib

/-!
Verification of the answer-extraction and normalization pipeline of
`llm_box/dataset/math.py` (class `Math`).

The Python code is shallowly embedded over `List Char` (Python `str` values are
immutable character sequences; we model the ASCII fragment exercised by the
rule tables and the corpus).  Python library primitives are modelled by
executable Lean functions:

* `s.replace(before, after)`  → `pyReplace` (left-to-right, non-overlapping,
  the replacement text is not rescanned; the patterns used by the source are
  all nonempty),
* `s.split(sep)[-1]`          → `afterLastSplit` (the suffix after the last
  occurrence found by the left-to-right non-overlapping scan of `str.split`),
* `sep in s`                  → `occursB` (substring containment),
* `s.strip()`                 → `pyStrip` (ASCII whitespace),
* `s.isdigit()`               → `pyIsDigit` (nonempty and all ASCII digits),
* `s.find(m)` + scan          → `firstOccRest` + `spanEnd`.

The four `re.sub` passes and the two `re.findall` patterns of the source are
modelled by dedicated scanners that implement exactly the backtracking
semantics of those concrete patterns (`.` never matches a newline, `(.*?)` is
lazy, `(.*)` is greedy, matches are non-overlapping and scanned left to
right); each scanner's doc comment spells out the correspondence.

Recursive scanners take an explicit fuel argument; the public wrappers pass
`s.length`, which is always sufficient because every recursive step consumes
at least one input character.  When the fuel is exhausted the remaining input
is returned unchanged, a case real calls never reach.
-/

/-- Characters of a string literal. -/
def str (s : String) : List Char := s.data

/-- Boolean prefix test: `leadsWith p s` iff `p` is a prefix of `s`. -/
def leadsWith : List Char → List Char → Bool
  | [], _ => true
  | _ :: _, [] => false
  | a :: as, b :: bs => if a = b then leadsWith as bs else false

/-- Remainder of `s` after the first occurrence of `sep`; `none` when `sep`
does not occur.  This is Python's `s.find(sep)` combined with skipping past
the found occurrence. -/
def firstOccRest (sep : List Char) : List Char → Option (List Char)
  | [] => none
  | c :: cs =>
    if leadsWith sep (c :: cs) then some ((c :: cs).drop sep.length)
    else firstOccRest sep cs

/-- Python's substring containment `sep in s` (for nonempty `sep`). -/
def occursB (sep s : List Char) : Bool := (firstOccRest sep s).isSome

/-- Fuelled worker for `afterLastSplit`. -/
def afterLastSplitFuel (sep : List Char) : Nat → List Char → List Char
  | 0, s => s
  | n + 1, s =>
    match firstOccRest sep s with
    | none => s
    | some rest => afterLastSplitFuel sep n rest

/-- Python's `s.split(sep)[-1]`: the suffix of `s` after the last occurrence
of `sep` in the non-overlapping left-to-right scan of `str.split`; `s` itself
when `sep` does not occur. -/
def afterLastSplit (sep s : List Char) : List Char := afterLastSplitFuel sep s.length s

/-- Specification-side reading of "everything after the LAST occurrence of
the phrase": descend to the rightmost position at which `sep` starts and drop
it.  `afterRightmost` is proved equal to `afterLastSplit` for separators
without self-overlap (`Borderfree`). -/
def afterRightmost (sep : List Char) : List Char → List Char
  | [] => []
  | c :: cs =>
    if occursB sep cs then afterRightmost sep cs
    else if leadsWith sep (c :: cs) then (c :: cs).drop sep.length
    else c :: cs

/-- A separator is border-free when no proper nonempty suffix of it is also a
prefix of it, i.e. it cannot overlap itself.  For such separators the
non-overlapping scan of `str.split` finds every occurrence. -/
def Borderfree (sep : List Char) : Prop :=
  ∀ k, k < sep.length → 0 < k → leadsWith (sep.drop k) sep = false

/-- Fuelled worker for `pyReplace`. -/
def pyReplaceFuel (pat repl : List Char) : Nat → List Char → List Char
  | 0, s => s
  | _ + 1, [] => []
  | n + 1, c :: cs =>
    if leadsWith pat (c :: cs) ∧ pat ≠ [] then
      repl ++ pyReplaceFuel pat repl n ((c :: cs).drop pat.length)
    else c :: pyReplaceFuel pat repl n cs

/-- Python's `s.replace(pat, repl)` for nonempty `pat`: left-to-right scan,
non-overlapping occurrences, replacement text not rescanned. -/
def pyReplace (pat repl s : List Char) : List Char := pyReplaceFuel pat repl s.length s

/-- ASCII whitespace, as stripped by Python's `str.strip()`. -/
def isPySpace (c : Char) : Bool :=
  c = ' ' || c = '\t' || c = '\n' || c = '\r' || c = '\x0b' || c = '\x0c'

/-- Python's `s.strip()` (ASCII model). -/
def pyStrip (s : List Char) : List Char :=
  ((s.dropWhile isPySpace).reverse.dropWhile isPySpace).reverse

/-- Python's `s.isdigit()` on the ASCII fragment: nonempty and all digits. -/
def pyIsDigit (s : List Char) : Bool := !s.isEmpty && s.all Char.isDigit

/-- True for every character except a newline; regex `.` matches exactly
these characters. -/
def isNotNL (c : Char) : Bool := if c = '\n' then false else true

/-- Split `l` at the first occurrence of `ch`: `some (before, after)` with
`l = before ++ ch :: after` and `ch ∉ before`; `none` when `ch ∉ l`. -/
def splitAtChar (ch : Char) : List Char → Option (List Char × List Char)
  | [] => none
  | c :: cs =>
    if c = ch then some ([], cs)
    else (splitAtChar ch cs).map (fun p => (c :: p.1, p.2))

/-- Split `l` at the first occurrence of `ch` that is not preceded by a
newline: used for lazy regex groups `(.*?)` followed by a literal, since `.`
cannot cross a newline.  `none` when a newline (or the end) comes first. -/
def splitAtCharNoNL (ch : Char) : List Char → Option (List Char × List Char)
  | [] => none
  | c :: cs =>
    if c = ch then some ([], cs)
    else if c = '\n' then none
    else (splitAtCharNoNL ch cs).map (fun p => (c :: p.1, p.2))

/-- Split `l` at the LAST occurrence of `ch`: used for greedy regex groups
`(.*)` followed by a literal. -/
def splitAtCharLast (ch : Char) : List Char → Option (List Char × List Char)
  | [] => none
  | c :: cs =>
    match splitAtCharLast ch cs with
    | some (a, b) => some (c :: a, b)
    | none => if c = ch then some ([], cs) else none

/-- Anchored match of `(.*?)(\$)(.*?)(\$)(.*)` at the head of `s`.  All three
dotted groups live on the current line (`.` never matches `\n`), the two lazy
groups stop at the first and second `$` of that line, and the final greedy
group eats the rest of the line.  Returns `(group3, remainder after the
match)`; the match succeeds exactly when the maximal newline-free prefix of
`s` contains at least two `$` characters. -/
def matchP1 (s : List Char) : Option (List Char × List Char) :=
  let L := s.takeWhile isNotNL
  match splitAtChar '$' L with
  | none => none
  | some (_, t) =>
    match splitAtChar '$' t with
    | none => none
    | some (mid, _) => some (mid, s.drop L.length)

/-- Fuelled worker for `sub1`. -/
def sub1Fuel : Nat → List Char → List Char
  | 0, s => s
  | _ + 1, [] => []
  | n + 1, c :: cs =>
    match matchP1 (c :: cs) with
    | some (g, rem) => '$' :: (g ++ '$' :: sub1Fuel n rem)
    | none => c :: sub1Fuel n cs

/-- `re.sub(r'(.*?)(\$)(.*?)(\$)(.*)', '$\\3$', s)`: on every line holding at
least two `$`, the whole line is collapsed to `$` + (text between the first
two `$`) + `$`; other text is kept. -/
def sub1 (s : List Char) : List Char := sub1Fuel s.length s

/-- Fuelled worker for `subUnwrapLazy`. -/
def subUnwrapLazyFuel (pat : List Char) : Nat → List Char → List Char
  | 0, s => s
  | _ + 1, [] => []
  | n + 1, c :: cs =>
    if leadsWith pat (c :: cs) then
      match splitAtCharNoNL '\x7d' ((c :: cs).drop pat.length) with
      | some (content, rem) => content ++ subUnwrapLazyFuel pat n rem
      | none => c :: subUnwrapLazyFuel pat n cs
    else c :: subUnwrapLazyFuel pat n cs

/-- `re.sub(pat ++ r'(.*?)(\})', '\\2', s)` for a literal `pat` such as
`\text{`: each occurrence of `pat` whose line contains a later `}` is
replaced together with that (first, lazy) `}` by the text in between. -/
def subUnwrapLazy (pat s : List Char) : List Char := subUnwrapLazyFuel pat s.length s

/-- Fuelled worker for `subUnwrapGreedy`. -/
def subUnwrapGreedyFuel (pat : List Char) : Nat → List Char → List Char
  | 0, s => s
  | _ + 1, [] => []
  | n + 1, c :: cs =>
    if leadsWith pat (c :: cs) then
      let u := (c :: cs).drop pat.length
      let L := u.takeWhile isNotNL
      match splitAtCharLast '\x7d' L with
      | some (content, afterL) =>
        content ++ subUnwrapGreedyFuel pat n (afterL ++ u.drop L.length)
      | none => c :: subUnwrapGreedyFuel pat n cs
    else c :: subUnwrapGreedyFuel pat n cs

/-- `re.sub(r'(\\boxed\{)(.*)(\})', '\\2', s)`: like `subUnwrapLazy` but the
middle group is GREEDY, so the match extends to the LAST `}` on the line. -/
def subUnwrapGreedy (pat s : List Char) : List Char := subUnwrapGreedyFuel pat s.length s

/-- Fuelled worker for `subFrac`. -/
def subFracFuel : Nat → List Char → List Char
  | 0, s => s
  | _ + 1, [] => []
  | n + 1, c :: cs =>
    if leadsWith (str ("frac")) (c :: cs) then
      match (c :: cs).drop 4 with
      | a :: b :: rest =>
        if a ≠ '\x7b' ∧ b ≠ '\n' then
          str ("frac\x7b") ++ a :: str ("\x7d\x7b") ++ b :: '\x7d' :: subFracFuel n rest
        else c :: subFracFuel n cs
      | _ => c :: subFracFuel n cs
    else c :: subFracFuel n cs

/-- `re.sub(r'(frac)([^{])(.)', 'frac{\\2}{\\3}', s)`: shorthand `\fracab`
becomes `\frac{a}{b}` (the class `[^{]` accepts a newline, the dot does not). -/
def subFrac (s : List Char) : List Char := subFracFuel s.length s

/-- Fuelled worker for `subSqrt`. -/
def subSqrtFuel : Nat → List Char → List Char
  | 0, s => s
  | _ + 1, [] => []
  | n + 1, c :: cs =>
    if leadsWith (str ("sqrt")) (c :: cs) then
      match (c :: cs).drop 4 with
      | a :: rest =>
        if a ≠ '\x7b' then
          str ("sqrt\x7b") ++ a :: '\x7d' :: subSqrtFuel n rest
        else c :: subSqrtFuel n cs
      | _ => c :: subSqrtFuel n cs
    else c :: subSqrtFuel n cs

/-- `re.sub(r'(sqrt)([^{])', 'sqrt{\\2}', s)`: shorthand `\sqrta` becomes
`\sqrt{a}`. -/
def subSqrt (s : List Char) : List Char := subSqrtFuel s.length s

/-- The `SUBSTITUTIONS` table of the source, in order. -/
def SUBSTITUTIONS : List (List Char × List Char) :=
  [(str ("an "), []), (str ("a "), []), (str (".$"), str ("$")), (str ("\\$"), []),
   (str ("\\ "), []), (str (" "), []), (str ("mbox"), str ("text")),
   (str (",\\text\x7band\x7d"), str (",")), (str ("\\text\x7band\x7d"), str (",")),
   (str ("\\text\x7bm\x7d"), str ("\\text\x7b\x7d"))]

/-- The `REMOVED_EXPRESSIONS` table of the source, in order. -/
def REMOVED_EXPRESSIONS : List (List Char) :=
  [str ("square"), str ("ways"), str ("integers"), str ("dollars"), str ("mph"),
   str ("inches"), str ("ft"), str ("hours"), str ("km"), str ("units"),
   str ("\\ldots"), str ("sue"), str ("points"), str ("feet"), str ("minutes"),
   str ("digits"), str ("cents"), str ("degrees"), str ("cm"), str ("gm"),
   str ("pounds"), str ("meters"), str ("meals"), str ("edges"), str ("students"),
   str ("childrentickets"), str ("multiples"), str ("\\text\x7bs\x7d"),
   str ("\\text\x7b.\x7d"), str ("\\text\x7b\ns\x7d"), str ("\\text\x7b\x7d^2"),
   str ("\\text\x7b\x7d^3"), str ("\\text\x7b\n\x7d"), str ("\\text\x7b\x7d"),
   str ("\\mathrm\x7bth\x7d"), str ("^\\circ"), str ("^\x7b\\circ\x7d"),
   str ("\\;"), str (",\\!"), str ("\x7b,\x7d"), str ("\""), str ("\\dots")]

/-- Apply an ordered table of literal replacement rules. -/
def applyRules (rules : List (List Char × List Char)) (s : List Char) : List Char :=
  rules.foldl (fun acc p => pyReplace p.1 p.2 acc) s

/-- Apply the ordered removal table (each entry replaced by nothing). -/
def applyRemovals (s : List Char) : List Char :=
  REMOVED_EXPRESSIONS.foldl (fun acc e => pyReplace e [] acc) s

/-- The final pass of `normalize_final_answer`:
`if fa.replace(',', '').isdigit(): fa = fa.replace(',', '')`. -/
def commaPass (fa : List Char) : List Char :=
  if pyIsDigit (pyReplace [','] [] fa) then pyReplace [','] [] fa else fa

/-- Every stage of `Math.normalize_final_answer` after the initial
`final_answer.split('=')[-1]` truncation, in source order.  (The source's
unconditional `print` after the first regex pass is a side effect with no
bearing on the returned value.) -/
def normTail (fa1 : List Char) : List Char :=
  let fa2 := applyRules SUBSTITUTIONS fa1
  let fa3 := applyRemovals fa2
  let fa4 := sub1 fa3
  let fa5 := subUnwrapLazy (str ("\\text\x7b")) fa4
  let fa6 := subUnwrapLazy (str ("\\textbf\x7b")) fa5
  let fa7 := subUnwrapLazy (str ("\\overline\x7b")) fa6
  let fa8 := subUnwrapGreedy (str ("\\boxed\x7b")) fa7
  let fa9 := subFrac fa8
  let fa10 := subSqrt fa9
  let fa11 := pyReplace ['$'] [] fa10
  commaPass fa11

/-- `Math.normalize_final_answer`. -/
def normalize_final_answer (final_answer : List Char) : List Char :=
  normTail (afterLastSplit ['='] final_answer)

/-- The 7-character marker `\boxed{` searched by `Math.extract_inner_content`. -/
def boxedMarker : List Char := str ("\\boxed\x7b")

/-- Step of the brace-depth counter of `Math.extract_inner_content`. -/
def braceStep (count : Nat) (c : Char) : Nat :=
  if c = '\x7b' then count + 1 else if c = '\x7d' then count - 1 else count

/-- Final value of the scan position of `Math.extract_inner_content`,
relative to the character right after the marker: the loop
`while count > 0 and end < len(text)` advances one character at a time,
updating the depth counter. -/
def spanEnd (count : Nat) : List Char → Nat
  | [] => 0
  | c :: cs => if count = 0 then 0 else 1 + spanEnd (braceStep count c) cs

/-- `Math.extract_inner_content`: find the first `\boxed{`, then scan with a
brace-depth counter starting at 1 and return `text[start:end - 1]`. -/
def extract_inner_content (text : List Char) : Option (List Char) :=
  (firstOccRest boxedMarker text).map (fun r => r.take (spanEnd 1 r - 1))

/-- The literal phrase `The answer is ` of `Math.answer_cleansing`. -/
def theAnswerIs : List Char := str ("The answer is ")

/-- Working text of `Math.answer_cleansing`:
`if ('The answer is ' in pred): pred = pred.split('The answer is ')[-1].strip()`. -/
def workText (pred : List Char) : List Char :=
  if occursB theAnswerIs pred then pyStrip (afterLastSplit theAnswerIs pred) else pred

/-- Fuelled worker for `findDollarSpans`. -/
def findDollarSpansFuel : Nat → List Char → List (List Char)
  | 0, _ => []
  | _ + 1, [] => []
  | n + 1, c :: cs =>
    if c = '$' then
      match splitAtCharNoNL '$' cs with
      | some (g, rem) => g :: findDollarSpansFuel n rem
      | none => findDollarSpansFuel n cs
    else findDollarSpansFuel n cs

/-- `re.findall(r'\$(.*?)\$', s)`: the contents of the non-overlapping
dollar-delimited spans, scanned left to right; the lazy group cannot cross a
newline. -/
def findDollarSpans (s : List Char) : List (List Char) := findDollarSpansFuel s.length s

/-- Anchored match of `[-+]?\d*\.\d+|\d+` at the head of `s`, returning the
matched token and the remainder.  The first alternative (optionally signed
decimal) needs a digit after the dot; a sign can only be matched as part of
that alternative, since after backtracking off the sign the remaining
pattern cannot match at a sign character.  The second alternative is a bare
maximal digit run. -/
def matchNumAt (s : List Char) : Option (List Char × List Char) :=
  match s with
  | [] => none
  | c :: cs =>
    let signed : Bool := c = '-' || c = '+'
    let s1 := if signed then cs else c :: cs
    let d1 := s1.takeWhile Char.isDigit
    let r1 := s1.dropWhile Char.isDigit
    match r1 with
    | '.' :: r2 =>
      let d2 := r2.takeWhile Char.isDigit
      if d2.isEmpty then
        if signed then none
        else if d1.isEmpty then none else some (d1, r1)
      else some ((if signed then [c] else []) ++ d1 ++ '.' :: d2, r2.dropWhile Char.isDigit)
    | _ =>
      if signed then none
      else if d1.isEmpty then none else some (d1, r1)

/-- Fuelled worker for `findNumbers`. -/
def findNumbersFuel : Nat → List Char → List (List Char)
  | 0, _ => []
  | _ + 1, [] => []
  | n + 1, c :: cs =>
    match matchNumAt (c :: cs) with
    | some (tok, rem) => tok :: findNumbersFuel n rem
    | none => findNumbersFuel n cs

/-- `re.findall(r"[-+]?\d*\.\d+|\d+", s)`: the numeric tokens of `s`, scanned
left to right, non-overlapping. -/
def findNumbers (s : List Char) : List (List Char) := findNumbersFuel s.length s

/-- The per-prediction body of `Math.answer_cleansing`: take the working
text, prefer the last dollar-delimited span (normalized), else the last
numeric token (NOT normalized), else the working text itself (NOT
normalized). -/
def answer_cleansing_single (pred : List Char) : List Char :=
  let p := workText pred
  match (findDollarSpans p).getLast? with
  | some fa => normalize_final_answer fa
  | none =>
    match (findNumbers p).getLast? with
    | some numTok => numTok
    | none => p

/-- `Math.answer_cleansing` over a batch of predictions. -/
def answer_cleansing (preds : List (List Char)) : List (List Char) :=
  preds.map answer_cleansing_single

/-- The `Math.references` property: the RAW `extract_inner_content` result of
each solution (`None` for solutions without the marker); no normalization is
applied. -/
def references (sols : List (List Char)) : List (Option (List Char)) :=
  sols.map extract_inner_content

/-- Elementwise comparison performed inside
`np.asarray(predictions) == np.asarray(self.references)`: exact string
equality; a `None` reference compares unequal to every string. -/
def predRefEq (p : List Char) (r : Option (List Char)) : Bool :=
  match r with
  | some t => p = t
  | none => false

/-- Shape semantics of the numpy comparison for one-dimensional arrays:
equal lengths compare elementwise, a length-1 operand broadcasts against the
other, and non-broadcastable shapes do not yield an elementwise result
(numpy's behaviour there is version-dependent — a DeprecationWarning with a
scalar `False`, later an error — and is modelled as `none`). -/
def npEqList (ps : List (List Char)) (rs : List (Option (List Char))) :
    Option (List Bool) :=
  if ps.length = rs.length then some (List.zipWith predRefEq ps rs)
  else if ps.length = 1 then some (rs.map (fun r => predRefEq ps.headI r))
  else if rs.length = 1 then some (ps.map (fun p => predRefEq p rs.headI))
  else none

/-- `np.mean` of a boolean list as a rational (numpy's NaN on an empty array
corresponds to the 0/0 = 0 convention here; the claims only concern nonempty
collections). -/
def npMean (bs : List Bool) : ℚ := (bs.count true : ℚ) / (bs.length : ℚ)

/-- The comparison-and-average core of `Math.calculate_metric`
(`np.mean(np.asarray(predictions) == np.asarray(self.references))`). -/
def scorer (ps : List (List Char)) (rs : List (Option (List Char))) : Option ℚ :=
  (npEqList ps rs).map npMean

/-- `Math.calculate_metric`: cleanse the predictions, then compare against
the stored references and average.  The references parameter stands for
`self.references`. -/
def calculate_metric (predictions : List (List Char))
    (refs : List (Option (List Char))) : Option ℚ :=
  scorer (answer_cleansing predictions) refs

/-- Specification-side working text: everything after the last occurrence of
the phrase (formulated via `afterRightmost`), trimmed; the whole prediction
when the phrase does not occur. -/
def workTextSpec (pred : List Char) : List Char :=
  if occursB theAnswerIs pred then pyStrip (afterRightmost theAnswerIs pred) else pred

/-- Specification-side `CandidateLocator.locate`: first-match-wins cascade —
content of the last dollar-delimited span of the working text, else the last
numeric token, else the working text itself. -/
def locate_spec (pred : List Char) : List Char :=
  match (findDollarSpans (workTextSpec pred)).getLast? with
  | some fa => fa
  | none =>
    match (findNumbers (workTextSpec pred)).getLast? with
    | some numTok => numTok
    | none => workTextSpec pred

/-- Net brace depth of the scan after reading `p`, starting from `count`,
counted in `ℤ` (specification-side view of the depth counter). -/
def depthFrom (count : Nat) (p : List Char) : Int :=
  (count : Int) + (p.count '\x7b' : Int) - (p.count '\x7d' : Int)

/-- A digit or a comma. -/
def digitOrComma (c : Char) : Bool := c.isDigit || c = ','

/-- A "simple bracketed answer in normalized form": an opening bracket, a
nonempty digits-and-commas body containing at least one digit, and the
matching closing bracket — e.g. `\x7b1,2\x7d` or `(0,1)`. -/
def SimpleBracketed (ob cb : Char) (x : List Char) : Prop :=
  ∃ inner, x = ob :: inner ++ [cb] ∧ inner.all digitOrComma = true ∧
    inner.any Char.isDigit = true

/-! ### Prefix and occurrence lemmas -/

theorem leadsWith_iff (p : List Char) : ∀ s, leadsWith p s = true ↔ ∃ t, s = p ++ t := by
  induction p with
  | nil => intro s; simp [leadsWith]
  | cons a as ih =>
    intro s
    cases s with
    | nil => simp [leadsWith]
    | cons b bs =>
      rw [leadsWith]
      by_cases hab : a = b
      · subst hab
        rw [if_pos rfl, ih bs]
        constructor
        · rintro ⟨t, rfl⟩; exact ⟨t, rfl⟩
        · rintro ⟨t, ht⟩
          rw [List.cons_append] at ht
          exact ⟨t, (List.cons.injEq a bs a (as ++ t) ▸ ht).2⟩
      · rw [if_neg hab]
        simp only [Bool.false_eq_true, false_iff]
        rintro ⟨t, ht⟩
        rw [List.cons_append] at ht
        exact hab ((List.cons.injEq b bs a (as ++ t) ▸ ht).1).symm

theorem mem_of_leadsWith {p s : List Char} {c : Char} (h : leadsWith p s = true)
    (hc : c ∈ p) : c ∈ s := by
  obtain ⟨t, rfl⟩ := (leadsWith_iff p s).mp h
  exact List.mem_append_left t hc

theorem firstOccRest_some (sep : List Char) :
    ∀ s r, firstOccRest sep s = some r → ∃ u, s = u ++ sep ++ r := by
  intro s
  induction s with
  | nil => intro r h; exact Option.noConfusion h
  | cons c cs ih =>
    intro r h
    rw [firstOccRest] at h
    by_cases hl : leadsWith sep (c :: cs) = true
    · rw [if_pos hl] at h
      obtain ⟨t, ht⟩ := (leadsWith_iff sep (c :: cs)).mp hl
      refine ⟨[], ?_⟩
      have hr : r = t := by
        have h2 := Option.some.inj h
        rw [← h2, ht, List.drop_left]
      rw [hr, ht, List.nil_append]
    · rw [if_neg hl] at h
      obtain ⟨u, hu⟩ := ih r h
      exact ⟨c :: u, by simp [hu, List.append_assoc]⟩

theorem firstOccRest_len {sep s r : List Char} (hsep : sep ≠ [])
    (h : firstOccRest sep s = some r) : r.length < s.length := by
  obtain ⟨u, hu⟩ := firstOccRest_some sep s r h
  have hlen := congrArg List.length hu
  simp [List.length_append] at hlen
  have hpos : 0 < sep.length := List.length_pos.mpr hsep
  omega

theorem occursB_iff {sep : List Char} (hsep : sep ≠ []) :
    ∀ s, occursB sep s = true ↔ ∃ u v, s = u ++ sep ++ v := by
  intro s
  induction s with
  | nil =>
    simp only [occursB, firstOccRest, Option.isSome_none, Bool.false_eq_true, false_iff]
    rintro ⟨u, v, huv⟩
    have hlen := congrArg List.length huv
    simp [List.length_append] at hlen
    have hpos : 0 < sep.length := List.length_pos.mpr hsep
    omega
  | cons c cs ih =>
    rw [occursB, firstOccRest]
    by_cases hl : leadsWith sep (c :: cs) = true
    · rw [if_pos hl]
      simp only [Option.isSome_some, true_iff]
      obtain ⟨t, ht⟩ := (leadsWith_iff sep (c :: cs)).mp hl
      exact ⟨[], t, by rw [ht, List.nil_append]⟩
    · rw [if_neg hl]
      rw [show (firstOccRest sep cs).isSome = occursB sep cs from rfl, ih]
      constructor
      · rintro ⟨u, v, rfl⟩
        exact ⟨c :: u, v, by simp⟩
      · rintro ⟨u, v, huv⟩
        cases u with
        | nil =>
          exfalso
          apply hl
          rw [List.nil_append] at huv
          exact (leadsWith_iff sep (c :: cs)).mpr ⟨v, huv⟩
        | cons c2 u2 =>
          refine ⟨u2, v, ?_⟩
          have h3 : c :: cs = c2 :: (u2 ++ (sep ++ v)) := by
            simpa [List.append_assoc] using huv
          rw [List.append_assoc]
          exact (List.cons.injEq c cs c2 (u2 ++ (sep ++ v)) ▸ h3).2

theorem occursB_false_iff {sep : List Char} (hsep : sep ≠ []) (s : List Char) :
    occursB sep s = false ↔ ∀ u v, s ≠ u ++ sep ++ v := by
  rw [← Bool.not_eq_true, occursB_iff hsep]
  push_neg
  rfl

/-! ### Equivalence of `afterLastSplit` and `afterRightmost` for border-free
separators -/

theorem border_shift {sep rest : List Char} (hbf : Borderfree sep) (hne : sep ≠ [])
    (h : ∃ u v, sep.tail ++ rest = u ++ sep ++ v) : ∃ u v, rest = u ++ sep ++ v := by
  obtain ⟨u, v, huv⟩ := h
  by_cases hu : sep.tail.length ≤ u.length
  · have h1 : u.take sep.tail.length = sep.tail := by
      have h2 := congrArg (List.take sep.tail.length) huv
      rw [List.take_left] at h2
      rw [List.append_assoc, List.take_append_of_le_length hu] at h2
      exact h2.symm
    have h2 : u = sep.tail ++ u.drop sep.tail.length := by
      conv_lhs => rw [← List.take_append_drop sep.tail.length u]
      rw [h1]
    rw [h2, List.append_assoc, List.append_assoc] at huv
    have h3 := List.append_cancel_left huv
    exact ⟨u.drop sep.tail.length, v, by rw [h3, List.append_assoc]⟩
  · exfalso
    have hult : u.length < sep.tail.length := Nat.lt_of_not_le hu
    have htl : sep.tail.length = sep.length - 1 := List.length_tail sep
    have hslen : 0 < sep.length := List.length_pos.mpr hne
    have hdrop : sep.drop (1 + u.length) ++ rest = sep ++ v := by
      have h2 := congrArg (List.drop u.length) huv
      rw [List.drop_append_of_le_length (Nat.le_of_lt hult)] at h2
      have h3 : sep.tail.drop u.length = sep.drop (1 + u.length) := by
        rw [← List.drop_one, List.drop_drop]
      rw [h3] at h2
      rw [List.append_assoc, List.drop_left] at h2
      exact h2
    have hklt : 1 + u.length < sep.length := by omega
    have hlw : leadsWith (sep.drop (1 + u.length)) sep = true := by
      rw [leadsWith_iff]
      have hlen : (sep.drop (1 + u.length)).length ≤ sep.length := by
        rw [List.length_drop]; omega
      have h4 := congrArg (List.take (sep.drop (1 + u.length)).length) hdrop
      rw [List.take_left] at h4
      rw [List.take_append_of_le_length hlen] at h4
      refine ⟨sep.drop (sep.drop (1 + u.length)).length, ?_⟩
      conv_lhs => rw [← List.take_append_drop (sep.drop (1 + u.length)).length sep]
      rw [← h4]
    have h5 := hbf (1 + u.length) hklt (by omega)
    rw [hlw] at h5
    exact Bool.noConfusion h5

theorem afterRightmost_append {sep rest : List Char} (hne : sep ≠ [])
    (hocc : occursB sep rest = true) :
    ∀ u, afterRightmost sep (u ++ rest) = afterRightmost sep rest := by
  intro u
  induction u with
  | nil => rfl
  | cons c u2 ih =>
    rw [List.cons_append, afterRightmost]
    have h1 : occursB sep (u2 ++ rest) = true := by
      rw [occursB_iff hne] at hocc ⊢
      obtain ⟨a, b, hab⟩ := hocc
      exact ⟨u2 ++ a, b, by rw [hab]; simp [List.append_assoc]⟩
    rw [if_pos h1]
    exact ih

theorem afterRightmost_of_not_occurs {sep s : List Char} (hne : sep ≠ [])
    (h : occursB sep s = false) : afterRightmost sep s = s := by
  cases s with
  | nil => rfl
  | cons c cs =>
    rw [afterRightmost]
    have h1 : occursB sep cs = false := by
      by_contra hc
      have hc2 : occursB sep cs = true := by
        cases h3 : occursB sep cs
        · exact absurd h3 hc
        · rfl
      rw [occursB_iff hne] at hc2
      obtain ⟨a, b, hab⟩ := hc2
      rw [occursB_false_iff hne] at h
      exact h (c :: a) b (by rw [hab]; simp)
    have h2 : leadsWith sep (c :: cs) ≠ true := by
      intro hl
      obtain ⟨t, ht⟩ := (leadsWith_iff sep (c :: cs)).mp hl
      rw [occursB_false_iff hne] at h
      exact h [] t (by rw [ht]; simp)
    rw [if_neg (by simp [h1]), if_neg h2]

theorem afterRightmost_past_occurrence {sep rest : List Char} (hbf : Borderfree sep)
    (hne : sep ≠ []) (hocc : occursB sep rest = false) :
    ∀ u, afterRightmost sep (u ++ (sep ++ rest)) = rest := by
  intro u
  induction u with
  | nil =>
    rw [List.nil_append]
    obtain ⟨c0, sep2, hsep⟩ : ∃ c0 sep2, sep = c0 :: sep2 := by
      cases sep with
      | nil => exact absurd rfl hne
      | cons a b => exact ⟨a, b, rfl⟩
    have hstep : sep ++ rest = c0 :: (sep2 ++ rest) := by rw [hsep]; rfl
    rw [hstep, afterRightmost]
    have h1 : occursB sep (sep2 ++ rest) = false := by
      cases h2 : occursB sep (sep2 ++ rest)
      · rfl
      · exfalso
        rw [occursB_iff hne] at h2
        have htail : sep2 = sep.tail := by rw [hsep]; rfl
        rw [htail] at h2
        have h3 := border_shift hbf hne h2
        rw [occursB_false_iff hne] at hocc
        obtain ⟨a, b, hab⟩ := h3
        exact hocc a b hab
    rw [if_neg (by simp [h1])]
    have h4 : leadsWith sep (c0 :: (sep2 ++ rest)) = true := by
      rw [leadsWith_iff]
      exact ⟨rest, by rw [hsep]; simp⟩
    rw [if_pos h4, ← hstep, List.drop_left]
  | cons c u2 ih =>
    rw [List.cons_append, afterRightmost]
    have h1 : occursB sep (u2 ++ (sep ++ rest)) = true := by
      rw [occursB_iff hne]
      exact ⟨u2, rest, by simp [List.append_assoc]⟩
    rw [if_pos h1]
    exact ih

theorem afterLastSplitFuel_eq_afterRightmost {sep : List Char} (hbf : Borderfree sep)
    (hne : sep ≠ []) :
    ∀ fuel s, s.length ≤ fuel → afterLastSplitFuel sep fuel s = afterRightmost sep s := by
  intro fuel
  induction fuel with
  | zero =>
    intro s hs
    have hnil : s = [] := List.length_eq_zero.mp (Nat.le_zero.mp hs)
    subst hnil
    rfl
  | succ n ih =>
    intro s hs
    rw [afterLastSplitFuel]
    cases h : firstOccRest sep s with
    | none =>
      show s = afterRightmost sep s
      have hocc : occursB sep s = false := by rw [occursB, h]; rfl
      rw [afterRightmost_of_not_occurs hne hocc]
    | some rest =>
      show afterLastSplitFuel sep n rest = afterRightmost sep s
      obtain ⟨u, hu⟩ := firstOccRest_some sep s rest h
      have hlen : rest.length < s.length := firstOccRest_len hne h
      rw [ih rest (by omega)]
      cases hc : occursB sep rest with
      | true =>
        rw [hu, show u ++ sep ++ rest = (u ++ sep) ++ rest from by rw [List.append_assoc]]
        rw [afterRightmost_append hne hc (u ++ sep)]
      | false =>
        rw [afterRightmost_of_not_occurs hne hc, hu, List.append_assoc]
        rw [afterRightmost_past_occurrence hbf hne hc u]

theorem afterLastSplit_eq_afterRightmost {sep : List Char} (hbf : Borderfree sep)
    (hne : sep ≠ []) (s : List Char) : afterLastSplit sep s = afterRightmost sep s :=
  afterLastSplitFuel_eq_afterRightmost hbf hne s.length s (Nat.le_refl _)

theorem theAnswerIs_borderfree : Borderfree theAnswerIs := by
  unfold Borderfree
  decide

theorem workText_eq_spec (pred : List Char) : workText pred = workTextSpec pred := by
  rw [workText, workTextSpec,
    afterLastSplit_eq_afterRightmost theAnswerIs_borderfree (by decide) pred]

/-! ### Identity lemmas for the normalization stages -/

theorem pyReplaceFuel_id (pat repl : List Char) :
    ∀ fuel s, (∀ u v, s ≠ u ++ pat ++ v) → pyReplaceFuel pat repl fuel s = s := by
  intro fuel
  induction fuel with
  | zero => intro s _; rfl
  | succ n ih =>
    intro s h
    cases s with
    | nil => rfl
    | cons c cs =>
      rw [pyReplaceFuel]
      have hcond : ¬(leadsWith pat (c :: cs) = true ∧ pat ≠ []) := by
        rintro ⟨hl, _⟩
        obtain ⟨t, ht⟩ := (leadsWith_iff pat (c :: cs)).mp hl
        exact h [] t (by rw [ht]; simp)
      rw [if_neg hcond]
      rw [ih cs (fun u v huv => h (c :: u) v (by rw [huv]; simp))]

theorem pyReplaceFuel_id_badchar {pat s : List Char} (repl : List Char) {c : Char}
    (hc : c ∈ pat) (hs : c ∉ s) (fuel : Nat) : pyReplaceFuel pat repl fuel s = s := by
  apply pyReplaceFuel_id
  intro u v huv
  apply hs
  rw [huv]
  simp [hc]

theorem applyRules_fix : ∀ (rules : List (List Char × List Char)) s,
    (∀ p ∈ rules, pyReplace p.1 p.2 s = s) → applyRules rules s = s := by
  intro rules
  induction rules with
  | nil => intro s _; rfl
  | cons r rs ih =>
    intro s h
    show List.foldl (fun acc p => pyReplace p.1 p.2 acc) (pyReplace r.1 r.2 s) rs = s
    rw [h r (List.mem_cons_self r rs)]
    exact ih s (fun p hp => h p (List.mem_cons_of_mem r hp))

theorem applyRemovals_fix (s : List Char)
    (h : ∀ e ∈ REMOVED_EXPRESSIONS, pyReplace e [] s = s) : applyRemovals s = s := by
  rw [applyRemovals]
  generalize REMOVED_EXPRESSIONS = es at h ⊢
  induction es with
  | nil => rfl
  | cons e es ih =>
    show List.foldl (fun acc e => pyReplace e [] acc) (pyReplace e [] s) es = s
    rw [h e (List.mem_cons_self e es)]
    exact ih (fun e2 he2 => h e2 (List.mem_cons_of_mem e he2))

theorem mem_of_mem_takeWhile (p : Char → Bool) :
    ∀ (l : List Char) (a : Char), a ∈ l.takeWhile p → a ∈ l := by
  intro l
  induction l with
  | nil => intro a h; exact absurd h (List.not_mem_nil a)
  | cons c cs ih =>
    intro a h
    rw [List.takeWhile_cons] at h
    by_cases hp : p c = true
    · rw [if_pos hp] at h
      rcases List.mem_cons.mp h with h1 | h1
      · exact h1 ▸ List.mem_cons_self c cs
      · exact List.mem_cons_of_mem c (ih a h1)
    · rw [if_neg hp] at h
      exact absurd h (List.not_mem_nil a)

theorem splitAtChar_none (ch : Char) : ∀ l, ch ∉ l → splitAtChar ch l = none := by
  intro l
  induction l with
  | nil => intro _; rfl
  | cons c cs ih =>
    intro h
    rw [splitAtChar]
    have hc : ¬(c = ch) := fun he => h (he ▸ List.mem_cons_self c cs)
    rw [if_neg hc, ih (fun hm => h (List.mem_cons_of_mem c hm))]
    rfl

theorem matchP1_none {s : List Char} (h : '$' ∉ s) : matchP1 s = none := by
  simp only [matchP1]
  rw [splitAtChar_none '$' _ (fun hm => h (mem_of_mem_takeWhile isNotNL s '$' hm))]

theorem sub1Fuel_id : ∀ fuel s, '$' ∉ s → sub1Fuel fuel s = s := by
  intro fuel
  induction fuel with
  | zero => intro s _; rfl
  | succ n ih =>
    intro s h
    cases s with
    | nil => rfl
    | cons c cs =>
      rw [sub1Fuel, matchP1_none h]
      rw [ih cs (fun hm => h (List.mem_cons_of_mem c hm))]

theorem subUnwrapLazyFuel_id (pat : List Char) {c0 : Char} (hc : c0 ∈ pat) :
    ∀ fuel s, c0 ∉ s → subUnwrapLazyFuel pat fuel s = s := by
  intro fuel
  induction fuel with
  | zero => intro s _; rfl
  | succ n ih =>
    intro s h
    cases s with
    | nil => rfl
    | cons c cs =>
      rw [subUnwrapLazyFuel]
      have hlw : ¬(leadsWith pat (c :: cs) = true) := fun hl => h (mem_of_leadsWith hl hc)
      rw [if_neg hlw, ih cs (fun hm => h (List.mem_cons_of_mem c hm))]

theorem subUnwrapGreedyFuel_id (pat : List Char) {c0 : Char} (hc : c0 ∈ pat) :
    ∀ fuel s, c0 ∉ s → subUnwrapGreedyFuel pat fuel s = s := by
  intro fuel
  induction fuel with
  | zero => intro s _; rfl
  | succ n ih =>
    intro s h
    cases s with
    | nil => rfl
    | cons c cs =>
      rw [subUnwrapGreedyFuel]
      have hlw : ¬(leadsWith pat (c :: cs) = true) := fun hl => h (mem_of_leadsWith hl hc)
      rw [if_neg hlw, ih cs (fun hm => h (List.mem_cons_of_mem c hm))]

theorem subFracFuel_id : ∀ fuel s, 'f' ∉ s → subFracFuel fuel s = s := by
  intro fuel
  induction fuel with
  | zero => intro s _; rfl
  | succ n ih =>
    intro s h
    cases s with
    | nil => rfl
    | cons c cs =>
      rw [subFracFuel]
      have hlw : ¬(leadsWith (str ("frac")) (c :: cs) = true) := fun hl =>
        h (mem_of_leadsWith hl (by decide))
      rw [if_neg hlw, ih cs (fun hm => h (List.mem_cons_of_mem c hm))]

theorem subSqrtFuel_id : ∀ fuel s, 's' ∉ s → subSqrtFuel fuel s = s := by
  intro fuel
  induction fuel with
  | zero => intro s _; rfl
  | succ n ih =>
    intro s h
    cases s with
    | nil => rfl
    | cons c cs =>
      rw [subSqrtFuel]
      have hlw : ¬(leadsWith (str ("sqrt")) (c :: cs) = true) := fun hl =>
        h (mem_of_leadsWith hl (by decide))
      rw [if_neg hlw, ih cs (fun hm => h (List.mem_cons_of_mem c hm))]

theorem firstOccRest_none_badchar {sep : List Char} {c : Char} (hc : c ∈ sep) :
    ∀ s, c ∉ s → firstOccRest sep s = none := by
  intro s
  induction s with
  | nil => intro _; rfl
  | cons c2 cs ih =>
    intro h
    rw [firstOccRest]
    have hlw : ¬(leadsWith sep (c2 :: cs) = true) := fun hl => h (mem_of_leadsWith hl hc)
    rw [if_neg hlw]
    exact ih (fun hm => h (List.mem_cons_of_mem c2 hm))

theorem afterLastSplitFuel_of_none {sep s : List Char} (h : firstOccRest sep s = none) :
    ∀ fuel, afterLastSplitFuel sep fuel s = s := by
  intro fuel
  cases fuel with
  | zero => rfl
  | succ n => rw [afterLastSplitFuel, h]

theorem firstOccRest_afterLastSplitFuel {sep : List Char} (hne : sep ≠ []) :
    ∀ fuel s, s.length ≤ fuel → firstOccRest sep (afterLastSplitFuel sep fuel s) = none := by
  intro fuel
  induction fuel with
  | zero =>
    intro s hs
    have hnil : s = [] := List.length_eq_zero.mp (Nat.le_zero.mp hs)
    subst hnil
    rfl
  | succ n ih =>
    intro s hs
    rw [afterLastSplitFuel]
    cases h : firstOccRest sep s with
    | none => exact h
    | some rest =>
      show firstOccRest sep (afterLastSplitFuel sep n rest) = none
      have hlen : rest.length < s.length := firstOccRest_len hne h
      exact ih rest (by omega)

/-! ### The comma pass -/

theorem pyReplaceFuel_comma_filter (ch : Char) :
    ∀ fuel s, s.length ≤ fuel →
      pyReplaceFuel [ch] [] fuel s = s.filter (fun c => decide (c ≠ ch)) := by
  intro fuel
  induction fuel with
  | zero =>
    intro s hs
    have hnil : s = [] := List.length_eq_zero.mp (Nat.le_zero.mp hs)
    subst hnil
    rfl
  | succ n ih =>
    intro s hs
    cases s with
    | nil => rfl
    | cons c cs =>
      rw [pyReplaceFuel]
      have hlen : cs.length ≤ n := by simp [List.length_cons] at hs; omega
      by_cases hc : ch = c
      · have hcond : leadsWith [ch] (c :: cs) = true ∧ [ch] ≠ [] := by
          refine ⟨?_, by simp⟩
          rw [leadsWith, if_pos hc]
          rfl
        rw [if_pos hcond]
        show pyReplaceFuel [ch] [] n cs = _
        rw [ih cs hlen, List.filter_cons]
        have h2 : (decide (c ≠ ch)) = false := by simp [hc.symm]
        rw [h2, if_neg (by simp)]
      · have hcond : ¬(leadsWith [ch] (c :: cs) = true ∧ [ch] ≠ []) := by
          rintro ⟨hl, _⟩
          rw [leadsWith, if_neg hc] at hl
          exact Bool.noConfusion hl
        rw [if_neg hcond, ih cs hlen, List.filter_cons]
        have h2 : (decide (c ≠ ch)) = true := by simp [Ne.symm hc]
        rw [h2, if_pos rfl]

theorem pyReplace_comma_filter (ch : Char) (s : List Char) :
    pyReplace [ch] [] s = s.filter (fun c => decide (c ≠ ch)) :=
  pyReplaceFuel_comma_filter ch s.length s (Nat.le_refl _)

theorem pyIsDigit_filter_comma (s : List Char) :
    pyIsDigit (s.filter (fun c => decide (c ≠ ','))) = true ↔
      ((∀ c ∈ s, digitOrComma c = true) ∧ ∃ c ∈ s, c.isDigit = true) := by
  rw [pyIsDigit, Bool.and_eq_true, Bool.not_eq_true', List.isEmpty_eq_false_iff_exists_mem]
  constructor
  · rintro ⟨⟨c0, hc0⟩, hall⟩
    have hall2 := List.all_eq_true.mp hall
    constructor
    · intro c hc
      by_cases hcm : c = ','
      · simp [digitOrComma, hcm]
      · have : c ∈ s.filter (fun c => decide (c ≠ ',')) :=
          List.mem_filter.mpr ⟨hc, by simp [hcm]⟩
        have hd := hall2 c this
        simp [digitOrComma, hd]
    · obtain ⟨hc0s, _⟩ := List.mem_filter.mp hc0
      exact ⟨c0, hc0s, hall2 c0 hc0⟩
  · rintro ⟨hall, ⟨c0, hc0s, hc0d⟩⟩
    have hc0ne : c0 ≠ ',' := by
      intro he
      rw [he] at hc0d
      exact Bool.noConfusion hc0d
    constructor
    · exact ⟨c0, List.mem_filter.mpr ⟨hc0s, by simp [hc0ne]⟩⟩
    · rw [List.all_eq_true]
      intro c hc
      obtain ⟨hcs, hcne⟩ := List.mem_filter.mp hc
      have := hall c hcs
      rw [digitOrComma, Bool.or_eq_true] at this
      rcases this with h1 | h1
      · exact h1
      · exfalso
        simp at hcne h1
        exact hcne h1

/-! ### Fixed points of the normalization pipeline -/

theorem notMem_bracketed {ob cb : Char} {inner : List Char} {c : Char}
    (hI : inner.all digitOrComma = true) (hdc : digitOrComma c = false)
    (h1 : c ≠ ob) (h2 : c ≠ cb) : c ∉ ob :: inner ++ [cb] := by
  intro hm
  rcases List.mem_cons.mp hm with he | hm2
  · exact h1 he
  · rcases List.mem_append.mp hm2 with hm3 | hm3
    · have h3 := List.all_eq_true.mp hI c hm3
      rw [hdc] at h3
      exact Bool.noConfusion h3
    · exact h2 (List.mem_singleton.mp hm3)

theorem noOcc_of_badchar {s pat : List Char} {c : Char} (hc : c ∈ pat) (hs : c ∉ s) :
    ∀ u v, s ≠ u ++ pat ++ v := by
  intro u v heq
  exact hs (heq ▸ (by simp [hc] : c ∈ u ++ pat ++ v))

theorem noBraceCommaBrace (inner : List Char) (hI : inner.all digitOrComma = true)
    (hD : inner.any Char.isDigit = true) :
    ∀ u v, '\x7b' :: inner ++ ['\x7d'] ≠ u ++ str ("\x7b,\x7d") ++ v := by
  intro u v heq
  have hpat : str ("\x7b,\x7d") = '\x7b' :: ',' :: '\x7d' :: [] := by decide
  rw [hpat] at heq
  cases u with
  | nil =>
    simp only [List.nil_append, List.cons_append] at heq
    injection heq with _ heq2
    cases inner with
    | nil => simp at heq2
    | cons a inner2 =>
      rw [List.cons_append] at heq2
      injection heq2 with ha htl
      cases inner2 with
      | nil =>
        subst ha
        exact absurd hD (by decide)
      | cons b inner3 =>
        rw [List.cons_append] at htl
        injection htl with hb _
        have hmem : b ∈ a :: b :: inner3 := List.mem_cons_of_mem a (List.mem_cons_self b inner3)
        have h3 := List.all_eq_true.mp hI b hmem
        rw [hb] at h3
        exact absurd h3 (by decide)
  | cons c0 u2 =>
    simp only [List.cons_append, List.append_assoc] at heq
    injection heq with _ heq2
    have hbm : '\x7b' ∈ inner ++ ['\x7d'] := by rw [heq2]; simp
    rcases List.mem_append.mp hbm with hm | hm
    · have h3 := List.all_eq_true.mp hI _ hm
      exact absurd h3 (by decide)
    · exact absurd (List.mem_singleton.mp hm) (by decide)

theorem normTail_fix (s : List Char)
    (h1 : applyRules SUBSTITUTIONS s = s) (h2 : applyRemovals s = s)
    (h3 : '$' ∉ s) (h4 : '\\' ∉ s) (h5 : 'f' ∉ s) (h6 : 's' ∉ s)
    (h7 : commaPass s = s) : normTail s = s := by
  simp only [normTail]
  rw [h1, h2]
  rw [show sub1 s = s from sub1Fuel_id s.length s h3]
  rw [show subUnwrapLazy (str ("\\text\x7b")) s = s from
    subUnwrapLazyFuel_id _ (by decide : '\\' ∈ str ("\\text\x7b")) s.length s h4]
  rw [show subUnwrapLazy (str ("\\textbf\x7b")) s = s from
    subUnwrapLazyFuel_id _ (by decide : '\\' ∈ str ("\\textbf\x7b")) s.length s h4]
  rw [show subUnwrapLazy (str ("\\overline\x7b")) s = s from
    subUnwrapLazyFuel_id _ (by decide : '\\' ∈ str ("\\overline\x7b")) s.length s h4]
  rw [show subUnwrapGreedy (str ("\\boxed\x7b")) s = s from
    subUnwrapGreedyFuel_id _ (by decide : '\\' ∈ str ("\\boxed\x7b")) s.length s h4]
  rw [show subFrac s = s from subFracFuel_id s.length s h5]
  rw [show subSqrt s = s from subSqrtFuel_id s.length s h6]
  rw [show pyReplace ['$'] [] s = s from
    pyReplaceFuel_id_badchar [] (List.mem_singleton.mpr rfl) h3 s.length]
  exact h7

theorem normalize_fix (s : List Char) (h0 : '=' ∉ s)
    (h1 : applyRules SUBSTITUTIONS s = s) (h2 : applyRemovals s = s)
    (h3 : '$' ∉ s) (h4 : '\\' ∉ s) (h5 : 'f' ∉ s) (h6 : 's' ∉ s)
    (h7 : commaPass s = s) : normalize_final_answer s = s := by
  rw [normalize_final_answer]
  rw [show afterLastSplit ['='] s = s from
    afterLastSplitFuel_of_none (firstOccRest_none_badchar (List.mem_singleton.mpr rfl) s h0)
      s.length]
  exact normTail_fix s h1 h2 h3 h4 h5 h6 h7

theorem normalize_fix_digits (s : List Char) (hall : s.all Char.isDigit = true) :
    normalize_final_answer s = s := by
  have hmem := List.all_eq_true.mp hall
  have hnot : ∀ c : Char, c.isDigit = false → c ∉ s := by
    intro c hcd hm
    have h2 := hmem c hm
    rw [hcd] at h2
    exact Bool.noConfusion h2
  apply normalize_fix
  · exact hnot '=' (by decide)
  · apply applyRules_fix
    intro p hp
    have hbad : ∃ c ∈ p.1, c.isDigit = false :=
      (by decide : ∀ p2 ∈ SUBSTITUTIONS, ∃ c ∈ p2.1, c.isDigit = false) p hp
    obtain ⟨c, hc1, hc2⟩ := hbad
    exact pyReplaceFuel_id_badchar p.2 hc1 (hnot c hc2) s.length
  · apply applyRemovals_fix
    intro e he
    have hbad : ∃ c ∈ e, c.isDigit = false :=
      (by decide : ∀ e2 ∈ REMOVED_EXPRESSIONS, ∃ c ∈ e2, c.isDigit = false) e he
    obtain ⟨c, hc1, hc2⟩ := hbad
    exact pyReplaceFuel_id_badchar [] hc1 (hnot c hc2) s.length
  · exact hnot '$' (by decide)
  · exact hnot '\\' (by decide)
  · exact hnot 'f' (by decide)
  · exact hnot 's' (by decide)
  · rw [commaPass]
    have hrep : pyReplace [','] [] s = s :=
      pyReplaceFuel_id_badchar [] (List.mem_singleton.mpr rfl) (hnot ',' (by decide)) s.length
    rw [hrep]
    by_cases hse : pyIsDigit s = true
    · rw [if_pos hse]
    · rw [if_neg hse]

theorem normalize_fix_bracketed (ob cb : Char) (inner : List Char)
    (hI : inner.all digitOrComma = true)
    (hOK : ∀ c ∈ ['=', '$', '\\', 'f', 's'], digitOrComma c = false ∧ c ≠ ob ∧ c ≠ cb)
    (hob : digitOrComma ob = false)
    (hsub : ∀ p ∈ SUBSTITUTIONS, ∃ c ∈ p.1, digitOrComma c = false ∧ c ≠ ob ∧ c ≠ cb)
    (hrem : ∀ e ∈ REMOVED_EXPRESSIONS, e = str ("\x7b,\x7d") ∨
      ∃ c ∈ e, digitOrComma c = false ∧ c ≠ ob ∧ c ≠ cb)
    (hbrace : ∀ u v, ob :: inner ++ [cb] ≠ u ++ str ("\x7b,\x7d") ++ v) :
    normalize_final_answer (ob :: inner ++ [cb]) = ob :: inner ++ [cb] := by
  have hnot : ∀ c : Char, digitOrComma c = false → c ≠ ob → c ≠ cb →
      c ∉ ob :: inner ++ [cb] := fun c h1 h2 h3 => notMem_bracketed hI h1 h2 h3
  apply normalize_fix
  · obtain ⟨ha, hb, hc2⟩ := hOK '=' (by simp)
    exact hnot '=' ha hb hc2
  · apply applyRules_fix
    intro p hp
    obtain ⟨c, hc1, ha, hb, hc2⟩ := hsub p hp
    exact pyReplaceFuel_id_badchar p.2 hc1 (hnot c ha hb hc2) _
  · apply applyRemovals_fix
    intro e he
    rcases hrem e he with hcomma | ⟨c, hc1, ha, hb, hc2⟩
    · subst hcomma
      exact pyReplaceFuel_id _ _ _ _ hbrace
    · exact pyReplaceFuel_id_badchar [] hc1 (hnot c ha hb hc2) _
  · obtain ⟨ha, hb, hc2⟩ := hOK '$' (by simp)
    exact hnot '$' ha hb hc2
  · obtain ⟨ha, hb, hc2⟩ := hOK '\\' (by simp)
    exact hnot '\\' ha hb hc2
  · obtain ⟨ha, hb, hc2⟩ := hOK 'f' (by simp)
    exact hnot 'f' ha hb hc2
  · obtain ⟨ha, hb, hc2⟩ := hOK 's' (by simp)
    exact hnot 's' ha hb hc2
  · rw [commaPass, pyReplace_comma_filter]
    have hnodig : ¬(pyIsDigit ((ob :: inner ++ [cb]).filter (fun c => decide (c ≠ ','))) = true) := by
      intro hdig
      have h2 := ((pyIsDigit_filter_comma _).mp hdig).1 ob (List.mem_cons_self _ _)
      rw [hob] at h2
      exact Bool.noConfusion h2
    rw [if_neg hnodig]

theorem normalize_fix_brace (inner : List Char) (hI : inner.all digitOrComma = true)
    (hD : inner.any Char.isDigit = true) :
    normalize_final_answer ('\x7b' :: inner ++ ['\x7d']) = '\x7b' :: inner ++ ['\x7d'] :=
  normalize_fix_bracketed _ _ inner hI (by decide) (by decide) (by decide) (by decide)
    (noBraceCommaBrace inner hI hD)

theorem normalize_fix_paren (inner : List Char) (hI : inner.all digitOrComma = true) :
    normalize_final_answer ('(' :: inner ++ [')']) = '(' :: inner ++ [')'] :=
  normalize_fix_bracketed _ _ inner hI (by decide) (by decide) (by decide) (by decide)
    (noOcc_of_badchar (by decide : '\x7b' ∈ str ("\x7b,\x7d"))
      (notMem_bracketed hI (by decide) (by decide) (by decide)))

theorem normalize_fix_square (inner : List Char) (hI : inner.all digitOrComma = true) :
    normalize_final_answer ('[' :: inner ++ [']']) = '[' :: inner ++ [']'] :=
  normalize_fix_bracketed _ _ inner hI (by decide) (by decide) (by decide) (by decide)
    (noOcc_of_badchar (by decide : '\x7b' ∈ str ("\x7b,\x7d"))
      (notMem_bracketed hI (by decide) (by decide) (by decide)))

/-! ### The brace-depth scan of `extract_inner_content` -/

theorem depthFrom_cons (count : Nat) (c : Char) (p : List Char) (h : 0 < count) :
    depthFrom count (c :: p) = depthFrom (braceStep count c) p := by
  rw [depthFrom, depthFrom, braceStep]
  by_cases h1 : c = '\x7b'
  · rw [if_pos h1]
    simp [List.count_cons, h1]
    omega
  · rw [if_neg h1]
    by_cases h2 : c = '\x7d'
    · rw [if_pos h2]
      simp [List.count_cons, h1, h2]
      omega
    · rw [if_neg h2]
      simp [List.count_cons, h1, h2]

theorem spanEnd_all_pos : ∀ (r : List Char) (count : Nat), 0 < count →
    (∀ j, j < r.length → depthFrom count (r.take (j + 1)) ≠ 0) →
    spanEnd count r = r.length := by
  intro r
  induction r with
  | nil => intro count _ _; rfl
  | cons c cs ih =>
    intro count hpos hall
    rw [spanEnd, if_neg (by omega : ¬(count = 0))]
    have hb : 0 < braceStep count c := by
      by_contra hb0
      have hb1 : braceStep count c = 0 := by omega
      apply hall 0 (by simp)
      rw [List.take_succ_cons, List.take_zero, depthFrom_cons count c [] hpos, depthFrom]
      simp [hb1]
    rw [ih (braceStep count c) hb ?_]
    · simp [List.length_cons]
      omega
    · intro j hj
      have h2 := hall (j + 1) (by simp [List.length_cons]; omega)
      rw [List.take_succ_cons, depthFrom_cons count c _ hpos] at h2
      exact h2

theorem spanEnd_first_zero : ∀ (r : List Char) (count j : Nat), 0 < count →
    j < r.length → depthFrom count (r.take (j + 1)) = 0 →
    (∀ i, i < j → depthFrom count (r.take (i + 1)) ≠ 0) → spanEnd count r = j + 1 := by
  intro r
  induction r with
  | nil => intro count j _ hj _ _; exact absurd hj (by simp)
  | cons c cs ih =>
    intro count j hpos hj hz hfirst
    rw [spanEnd, if_neg (by omega : ¬(count = 0))]
    cases j with
    | zero =>
      have hb : braceStep count c = 0 := by
        rw [List.take_succ_cons, List.take_zero, depthFrom_cons count c [] hpos,
          depthFrom] at hz
        simp at hz
        omega
      have hcs : spanEnd 0 cs = 0 := by
        cases cs with
        | nil => rfl
        | cons d ds => rw [spanEnd, if_pos rfl]
      rw [hb, hcs]
    | succ j2 =>
      have hb : 0 < braceStep count c := by
        by_contra hb0
        have hb1 : braceStep count c = 0 := by omega
        apply hfirst 0 (Nat.succ_pos j2)
        rw [List.take_succ_cons, List.take_zero, depthFrom_cons count c [] hpos, depthFrom]
        simp [hb1]
      have hj2 : j2 < cs.length := by simp [List.length_cons] at hj; omega
      have hz2 : depthFrom (braceStep count c) (cs.take (j2 + 1)) = 0 := by
        rw [List.take_succ_cons, depthFrom_cons count c _ hpos] at hz
        exact hz
      have hf2 : ∀ i, i < j2 → depthFrom (braceStep count c) (cs.take (i + 1)) ≠ 0 := by
        intro i hi
        have h2 := hfirst (i + 1) (by omega)
        rw [List.take_succ_cons, depthFrom_cons count c _ hpos] at h2
        exact h2
      rw [ih (braceStep count c) j2 hb hj2 hz2 hf2]
      omega

/-! ### Claim theorems -/

/-- C6: `answer_cleansing` selects its candidate by the first-match-wins
cascade of the specification: the working text is everything after the LAST
occurrence of `The answer is ` (trimmed) when the phrase occurs and the whole
prediction otherwise, the candidate is the content of the LAST dollar-
delimited span of the working text if one exists, otherwise the LAST numeric
token, otherwise the working text itself.  The statement is phrased with the
specification-side `workTextSpec` (rightmost-occurrence formulation), so it
also proves that the source's `split('The answer is ')[-1]` computes exactly
the text after the last occurrence of the (self-overlap-free) phrase. -/
theorem c6_candidate_locator_order (pred : List Char) :
    answer_cleansing_single pred =
      match (findDollarSpans (workTextSpec pred)).getLast? with
      | some fa => normalize_final_answer fa
      | none =>
        match (findNumbers (workTextSpec pred)).getLast? with
        | some numTok => numTok
        | none => workTextSpec pred := by
  simp only [answer_cleansing_single]
  rw [workText_eq_spec]

/-- Claim C1 counterexample: on the prediction `an apple` (no dollar span, no
numeric token) the code returns the raw working text `an apple`, while the
claimed pipeline (CandidateLocator, then SubstitutionPipeline and
StructuralStripper) would return `apple`. -/
theorem c1_counterexample :
    answer_cleansing_single (str ("an apple")) = str ("an apple") ∧
    locate_spec (str ("an apple")) = str ("an apple") ∧
    normalize_final_answer (str ("an apple")) = str ("apple") ∧
    str ("apple") ≠ str ("an apple") :=
  ⟨by decide, by decide, by decide, by decide⟩

/-- C1 (amended): the normalized prediction is obtained by passing the
Candidate selected by CandidateLocator through the normalization pipeline in
the dollar-delimited branch ONLY; in the trailing-numeric and raw-text
fallback branches the selected candidate is returned without normalization. -/
theorem c1_normalize_only_dollar_branch (pred : List Char) :
    answer_cleansing_single pred =
      if ((findDollarSpans (workTextSpec pred)).getLast?).isSome then
        normalize_final_answer (locate_spec pred)
      else locate_spec pred := by
  simp only [answer_cleansing_single, locate_spec]
  rw [workText_eq_spec]
  cases h : (findDollarSpans (workTextSpec pred)).getLast? with
  | some fa => simp [h]
  | none => simp [h]

/-- Claim C2 counterexample: for the solution `\boxed{an 4}` the stored
reference is the raw extracted span `an 4`, not the normalized answer `4`
that the full pipeline would produce. -/
theorem c2_counterexample :
    references [str ("\\boxed\x7ban 4\x7d")] = [some (str ("an 4"))] ∧
    normalize_final_answer (str ("an 4")) = str ("4") ∧
    str ("an 4") ≠ str ("4") :=
  ⟨by decide, by decide, by decide⟩

/-- C2 (amended): the ground truth used by the Scorer is the RAW
`extract_inner_content` span of each solution, with no normalization applied:
for index-aligned collections the metric is the fraction of items whose
cleansed prediction is exactly equal to the raw extracted span. -/
theorem c2_scoring_uses_raw_extraction (preds sols : List (List Char))
    (hlen : preds.length = sols.length) :
    calculate_metric preds (references sols) =
      some (((List.zipWith
          (fun p s => predRefEq (answer_cleansing_single p) (extract_inner_content s))
          preds sols).count true : ℚ) / (preds.length : ℚ)) := by
  rw [calculate_metric, scorer]
  have hl1 : (answer_cleansing preds).length = (references sols).length := by
    simp [answer_cleansing, references, hlen]
  rw [npEqList, if_pos hl1]
  rw [answer_cleansing, references, List.zipWith_map_left, List.zipWith_map_right]
  rw [Option.map_some']
  rw [npMean]
  congr 2
  rw [List.length_zipWith, hlen, Nat.min_self]

/-- Witness for C2 (amended) at a concrete input. -/
theorem c2_scoring_uses_raw_extraction_witness :
    calculate_metric [str ("$1$")] (references [str ("a\\boxed\x7b1\x7db")]) = some 1 := by
  have h := c2_scoring_uses_raw_extraction [str ("$1$")] [str ("a\\boxed\x7b1\x7db")] rfl
  have h2 : (List.zipWith
      (fun p s => predRefEq (answer_cleansing_single p) (extract_inner_content s))
      [str ("$1$")] [str ("a\\boxed\x7b1\x7db")]).count true = 1 := by decide
  rw [h, h2]
  norm_num

/-- C3: the Scorer performs NO length validation.  With one (cleansed)
prediction against two references — collections of different lengths — numpy
broadcasting silently produces the numeric accuracy 1/2 instead of an
explicit invalid-input signal. -/
theorem c3_mismatched_lengths_numeric_score :
    calculate_metric [str ("4")] [some (str ("4")), some (str ("5"))] =
      some ((1 : ℚ) / 2) := by
  have h : npEqList (answer_cleansing [str ("4")]) [some (str ("4")), some (str ("5"))] =
      some [true, false] := by decide
  rw [calculate_metric, scorer, h]
  norm_num [npMean]

/-- C4: when the marker `\boxed{` occurs, `extract_inner_content` returns the
text between the character right after the marker's opening brace and the
brace at which the running depth (starting at 1, incremented on an opening
and decremented on a closing brace) first returns to 0 — that closing brace
excluded; in particular nested braces are tracked, so extraction from a text
containing `\boxed{\frac{1}{2}}` yields `\frac{1}{2}`. -/
theorem c4_brace_extractor_depth_scan :
    (∀ text r j, firstOccRest boxedMarker text = some r → j < r.length →
      depthFrom 1 (r.take (j + 1)) = 0 →
      (∀ i, i < j → depthFrom 1 (r.take (i + 1)) ≠ 0) →
      extract_inner_content text = some (r.take j)) ∧
    extract_inner_content (str ("a\\boxed\x7b\\frac\x7b1\x7d\x7b2\x7d\x7db")) =
      some (str ("\\frac\x7b1\x7d\x7b2\x7d")) := by
  constructor
  · intro text r j hocc hj hz hfirst
    rw [extract_inner_content, hocc, Option.map_some']
    rw [spanEnd_first_zero r 1 j (by omega) hj hz hfirst]
    simp
  · decide

/-- Witness for C4 at a concrete input. -/
theorem c4_brace_extractor_depth_scan_witness :
    extract_inner_content (str ("\\boxed\x7b12\x7d")) = some (str ("12")) := by
  have h := c4_brace_extractor_depth_scan.1 (str ("\\boxed\x7b12\x7d")) (str ("12\x7d")) 2
    (by decide) (by decide) (by decide) (by decide)
  rw [h]
  decide

/-- C5: `extract_inner_content` returns `none` exactly when the marker
`\boxed{` does not occur; when the marker is present but the depth never
returns to 0 before the end of the text, the scan consumes the whole
remainder and the result is that remainder minus its last character
(`text[start:end - 1]` with `end = len(text)`).  Both branches are total
functions — no exception is possible, which the Lean embedding shows by
construction. -/
theorem c5_brace_extractor_absent_and_malformed (text : List Char) :
    (extract_inner_content text = none ↔ occursB boxedMarker text = false) ∧
    (∀ r, firstOccRest boxedMarker text = some r →
      (∀ j, j < r.length → depthFrom 1 (r.take (j + 1)) ≠ 0) →
      extract_inner_content text = some r.dropLast) := by
  constructor
  · rw [extract_inner_content, occursB]
    cases h : firstOccRest boxedMarker text <;> simp [h]
  · intro r hocc hall
    rw [extract_inner_content, hocc, Option.map_some']
    rw [spanEnd_all_pos r 1 (by omega) hall, List.dropLast_eq_take]

/-- Witness for C5 at a concrete unterminated input. -/
theorem c5_brace_extractor_witness :
    extract_inner_content (str ("\\boxed\x7b52")) = some (str ("5")) := by
  have h := (c5_brace_extractor_absent_and_malformed (str ("\\boxed\x7b52"))).2 (str ("52"))
    (by decide) (by decide)
  rw [h]
  decide

/-- C7: for equal-length, index-aligned collections the Scorer returns the
number of positions with exactly equal strings (no trimming, no case
folding — `predRefEq` is plain equality) divided by the number of pairs, and
any returned score lies in [0, 1]. -/
theorem c7_scorer_exact_match_fraction (ps : List (List Char))
    (rs : List (Option (List Char))) (hlen : ps.length = rs.length)
    (hpos : 0 < ps.length) :
    scorer ps rs =
      some (((List.zipWith predRefEq ps rs).count true : ℚ) / (ps.length : ℚ)) ∧
    ∀ q : ℚ, scorer ps rs = some q → 0 ≤ q ∧ q ≤ 1 := by
  have heq : scorer ps rs = some (npMean (List.zipWith predRefEq ps rs)) := by
    rw [scorer, npEqList, if_pos hlen, Option.map_some']
  constructor
  · rw [heq, npMean]
    congr 2
    rw [List.length_zipWith, hlen, Nat.min_self]
  · intro q hq
    rw [heq] at hq
    have hq2 : q = npMean (List.zipWith predRefEq ps rs) := (Option.some.inj hq).symm
    subst hq2
    rw [npMean]
    have hcl : (List.zipWith predRefEq ps rs).count true ≤
        (List.zipWith predRefEq ps rs).length := List.count_le_length _ _
    have hlpos : 0 < (List.zipWith predRefEq ps rs).length := by
      rw [List.length_zipWith, hlen, Nat.min_self]
      omega
    constructor
    · apply div_nonneg
      · exact_mod_cast Nat.zero_le _
      · exact_mod_cast Nat.zero_le _
    · rw [div_le_one (by exact_mod_cast hlpos)]
      exact_mod_cast hcl

/-- Witness for C7 at a concrete input. -/
theorem c7_scorer_witness :
    scorer [str ("4"), str ("5")] [some (str ("4")), some (str ("7"))] =
      some ((1 : ℚ) / 2) := by
  have h := (c7_scorer_exact_match_fraction [str ("4"), str ("5")]
    [some (str ("4")), some (str ("7"))] rfl (by decide)).1
  have h2 : (List.zipWith predRefEq [str ("4"), str ("5")]
      [some (str ("4")), some (str ("7"))]).count true = 1 := by decide
  rw [h, h2]
  norm_num

/-- Claim C8 counterexample: the string `,` consists only of digits and
commas, yet the final pass leaves it unchanged (removing the commas would
give the empty string), because the guard `isdigit()` also demands at least
one digit. -/
theorem c8_comma_counterexample :
    commaPass [','] = [','] ∧ pyReplace [','] [] [','] = [] ∧
    ([','].all digitOrComma) = true ∧ ([','] : List Char) ≠ [] :=
  ⟨by decide, by decide, by decide, by decide⟩

/-- C8 (amended): in the final pass commas are removed if and only if the
entire remaining string consists only of digits and commas AND contains at
least one digit; otherwise every comma is left in place.  `3,000` becomes
`3000`, while a comma next to other characters (e.g. `3,0z`) is preserved. -/
theorem c8_comma_pass_amended :
    (∀ s : List Char, commaPass s =
      if (∀ c ∈ s, digitOrComma c = true) ∧ ∃ c ∈ s, c.isDigit = true then
        pyReplace [','] [] s
      else s) ∧
    commaPass (str ("3,000")) = str ("3000") ∧
    commaPass (str ("3,0z")) = str ("3,0z") := by
  refine ⟨?_, by decide, by decide⟩
  intro s
  rw [commaPass]
  by_cases h : (∀ c ∈ s, digitOrComma c = true) ∧ ∃ c ∈ s, c.isDigit = true
  · rw [if_pos h]
    rw [pyReplace_comma_filter]
    rw [if_pos ((pyIsDigit_filter_comma s).mpr h)]
  · rw [if_neg h, pyReplace_comma_filter]
    rw [if_neg (fun hd => h ((pyIsDigit_filter_comma s).mp hd))]

/-- C9: normalization is idempotent on already-normalized answers — pure
digit strings, and simple bracketed answers (an opening brace, parenthesis or
square bracket, a digits-and-commas body containing a digit, and the matching
closing delimiter).  Both classes are fixed points of the pipeline, so
normalizing twice equals normalizing once. -/
theorem c9_normalize_idempotent (x : List Char)
    (h : x.all Char.isDigit = true ∨ SimpleBracketed '\x7b' '\x7d' x ∨
      SimpleBracketed '(' ')' x ∨ SimpleBracketed '[' ']' x) :
    normalize_final_answer (normalize_final_answer x) = normalize_final_answer x := by
  have hfix : normalize_final_answer x = x := by
    rcases h with h | ⟨inner, rfl, hI, hD⟩ | ⟨inner, rfl, hI, hD⟩ | ⟨inner, rfl, hI, hD⟩
    · exact normalize_fix_digits x h
    · exact normalize_fix_brace inner hI hD
    · exact normalize_fix_paren inner hI
    · exact normalize_fix_square inner hI
  rw [hfix, hfix]

/-- Witness for C9 at concrete inputs of both classes. -/
theorem c9_normalize_idempotent_witness :
    (str ("123")).all Char.isDigit = true ∧
    normalize_final_answer (normalize_final_answer (str ("123"))) =
      normalize_final_answer (str ("123")) :=
  ⟨by decide, c9_normalize_idempotent (str ("123")) (Or.inl (by decide))⟩

/-- C10: before any substitution, removal or regex pass, normalization
discards everything up to and including the LAST `=` of the input
(`final_answer.split('=')[-1]`): normalizing `s` equals normalizing the
suffix of `s` after its last `=`, and for inputs without `=` the whole
string is processed.  The specification never mentions this step. -/
theorem c10_equals_sign_truncation (s : List Char) :
    normalize_final_answer s = normalize_final_answer (afterLastSplit ['='] s) ∧
    ('=' ∉ s → afterLastSplit ['='] s = s) := by
  constructor
  · rw [normalize_final_answer, normalize_final_answer]
    congr 1
    have hnone : firstOccRest ['='] (afterLastSplit ['='] s) = none :=
      firstOccRest_afterLastSplitFuel (by simp) s.length s (Nat.le_refl _)
    exact (afterLastSplitFuel_of_none hnone _).symm
  · intro h
    exact afterLastSplitFuel_of_none
      (firstOccRest_none_badchar (List.mem_singleton.mpr rfl) s h) s.length

/-- Witness for C10 at a concrete input without `=`. -/
theorem c10_equals_sign_truncation_witness :
    afterLastSplit ['='] (str ("ab")) = str ("ab") ∧
    normalize_final_answer (str ("ab")) =
      normalize_final_answer (afterLastSplit ['='] (str ("ab"))) :=
  ⟨(c10_equals_sign_truncation (str ("ab"))).2 (by decide),
   (c10_equals_sign_truncation (str ("ab"))).1⟩
